import Mathlib

/-!
# Verification of the `wordcount` library

Shallow embedding of `src/lib.rs` of the `wordcount` repository.

The library exposes one function,
`count(input: impl BufRead, option: CountOption) -> HashMap<String, usize>`,
which reads the input line by line (`BufRead::lines`), panics (`unwrap`) on a
line that is not valid UTF-8, and otherwise folds each line into a frequency
map according to the selected `CountOption`.

Modelling choices:
* A Rust `String` is modelled as its sequence of Unicode scalar values,
  `List Char` (abbreviated `Str`).  Byte-for-byte equality of UTF-8 strings
  coincides with equality of their scalar-value sequences.
* The `HashMap<String, usize>` is modelled as an association list
  `List (Str × Nat)` with unique keys; `*freqs.entry(k).or_insert(0) += 1`
  becomes `incr`.  `HashMap` equality is lookup-equality; on the association
  lists produced here insertion order is deterministic, so plain list
  equality is a sound (stronger) witness for map equality.
* A `BufRead` source is modelled by the sequence of results that its
  `lines()` iterator yields: `List (Option Str)`, where `none` stands for a
  line whose bytes do not decode as UTF-8 (an `Err` from the iterator, on
  which `line.unwrap()` panics).  A panic is modelled by `count` returning
  `none`: no mapping is produced.
* Reading lines out of a concrete text is modelled by `splitLines`,
  following `BufRead::lines`: a line ends at `'\n'`, a `'\r'` immediately
  before the `'\n'` is stripped with it, a final fragment without a
  terminator is a line (kept verbatim, including a trailing `'\r'`), and a
  trailing terminator does not produce an extra empty line.
-/

/-- A Rust `String`, as its sequence of Unicode scalar values. -/
abbrev Str := List Char

/-- The frequency map `HashMap<String, usize>`: an association list with
unique keys. -/
abbrev FreqMap := List (Str × Nat)

/-- `CountOption` from `src/lib.rs`: the unit that `count` counts. -/
inductive CountOption where
  /-- Count occurrences of each character. -/
  | Char
  /-- Count occurrences of each word (`\w+` match). -/
  | Word
  /-- Count occurrences of each line. -/
  | Line
deriving DecidableEq, Repr

/-- `impl Default for CountOption`: the default option is `Word`. -/
def CountOption.default : CountOption := CountOption.Word

/-- `*freqs.entry(k).or_insert(0) += 1`: insert the key with count 0 if it is
absent, then add one to its count. -/
def incr : FreqMap → Str → FreqMap
  | [], k => [(k, 1)]
  | (k', v) :: rest, k =>
      if k' = k then (k', v + 1) :: rest else (k', v) :: incr rest k

/-- `freqs.get(k)`: the count stored for a key, if present. -/
def lookup (k : Str) : FreqMap → Option Nat
  | [] => none
  | (k', v) :: rest => if k' = k then some v else lookup k rest

/-- The keys of the frequency map. -/
def keys (m : FreqMap) : List Str := m.map Prod.fst

/-- The sum of all counts stored in the frequency map. -/
def sumValues (m : FreqMap) : Nat := (m.map Prod.snd).sum

/-- The character class `\w` of the word regex `Regex::new(r"\w+")`:
a word character is alphanumeric or an underscore.  (The regex crate's `\w`
is Unicode-aware; the theorems below depend only on runs of this class being
maximal, not on its exact extent.) -/
def isWordChar (c : Char) : Bool := c.isAlphanum || c = '_'

/-- Left-to-right scan of `re.find_iter(&line)` for the regex `\w+`: collect
the maximal non-overlapping runs of word characters.  `acc` holds the
(reversed) run currently being read. -/
def findWordsAux : List Char → List Char → List (List Char)
  | acc, [] => if acc.isEmpty then [] else [acc.reverse]
  | acc, c :: rest =>
      if isWordChar c then findWordsAux (c :: acc) rest
      else if acc.isEmpty then findWordsAux [] rest
      else acc.reverse :: findWordsAux [] rest

/-- All matches of `\w+` in a line, leftmost first. -/
def findWords (line : Str) : List Str := findWordsAux [] line

/-- Strip one trailing `'\r'`, as `BufRead::lines` does after removing the
`'\n'` of a terminator. -/
def stripCR (l : Str) : Str :=
  if l.getLast? = some '\r' then l.dropLast else l

/-- `BufRead::lines` on a concrete text: split at `'\n'`, strip a `'\r'`
standing right before the `'\n'`, keep a last fragment that has no
terminator, and yield no extra empty line after a trailing terminator.
`acc` holds the (reversed) characters of the line being read. -/
def splitLinesAux : List Char → List Char → List Str
  | acc, [] => [acc.reverse]
  | acc, c :: rest =>
      if c = '\n' then
        match rest with
        | [] => [stripCR acc.reverse]
        | _ :: _ => stripCR acc.reverse :: splitLinesAux [] rest
      else splitLinesAux (c :: acc) rest

/-- The sequence of lines `BufRead::lines` yields on a concrete text. -/
def splitLines (s : Str) : List Str :=
  match s with
  | [] => []
  | _ :: _ => splitLinesAux [] s

/-- The body of the `for line in input.lines()` loop of `count`: fold one
decoded line into the frequency map according to the option. -/
def processLine (freqs : FreqMap) (option : CountOption) (line : Str) : FreqMap :=
  match option with
  | CountOption.Char => line.foldl (fun freqs c => incr freqs [c]) freqs
  | CountOption.Word => (findWords line).foldl (fun freqs w => incr freqs w) freqs
  | CountOption.Line => incr freqs line

/-- The loop of `count` over the results of the `lines()` iterator: a line
that fails to decode (`none`) makes `line.unwrap()` panic, aborting the
whole call with no result and without looking at the rest of the input. -/
def countLoop (option : CountOption) : List (Option Str) → FreqMap → Option FreqMap
  | [], freqs => some freqs
  | none :: _, _ => none
  | some line :: rest, freqs => countLoop option rest (processLine freqs option line)

/-- `count` from `src/lib.rs`, over a source modelled as the sequence of
line-read results it yields.  `none` models the panic on invalid UTF-8. -/
def count (input : List (Option Str)) (option : CountOption) : Option FreqMap :=
  countLoop option input []

/-- `count` on a source all of whose lines decode successfully. -/
def countLines (lines : List Str) (option : CountOption) : FreqMap :=
  lines.foldl (fun freqs line => processLine freqs option line) []

/-- `count` reading from a concrete UTF-8 text (e.g. a `Cursor` over a
string literal, as in the tests). -/
def countString (s : Str) (option : CountOption) : FreqMap :=
  countLines (splitLines s) option

/-- The units (characters, `\w+` matches, or the line itself) that one
decoded line contributes to the frequency map. -/
def unitsOfLine (option : CountOption) (line : Str) : List Str :=
  match option with
  | CountOption.Char => line.map (fun c => [c])
  | CountOption.Word => findWords line
  | CountOption.Line => [line]

/-- All units observed while counting a source, in the order they are
counted.  Lines that fail to decode contribute nothing (when `count`
succeeds there are none). -/
def observedUnits (input : List (Option Str)) (option : CountOption) : List Str :=
  ((input.filterMap id).map (unitsOfLine option)).flatten

/-- The number of maximal word-character runs of a line, counted at their
starting positions: position `i` starts a run when it holds a word character
and either `i = 0` or position `i - 1` does not.  The boolean argument says
whether the previous character was a word character. -/
def countRuns : Bool → List Char → Nat
  | _, [] => 0
  | prev, c :: rest =>
      (if isWordChar c && !prev then 1 else 0) + countRuns (isWordChar c) rest

/-- Folding a list of units into the frequency map, one `incr` each. -/
def applyUnits (m : FreqMap) (us : List Str) : FreqMap := us.foldl incr m

/-! ## Lemmas about `incr` and `lookup` -/

theorem keys_nil : keys [] = [] := rfl

theorem keys_cons (p : Str × Nat) (m : FreqMap) : keys (p :: m) = p.1 :: keys m := rfl

theorem incr_cons_eq (k : Str) (v : Nat) (m : FreqMap) :
    incr ((k, v) :: m) k = (k, v + 1) :: m := by simp [incr]

theorem incr_cons_ne (k k' : Str) (v : Nat) (m : FreqMap) (h : k ≠ k') :
    incr ((k, v) :: m) k' = (k, v) :: incr m k' := by simp [incr, h]

theorem lookup_incr (m : FreqMap) (k k' : Str) :
    lookup k (incr m k') =
      if k' = k then some ((lookup k m).getD 0 + 1) else lookup k m := by
  induction m with
  | nil =>
    by_cases h : k' = k <;> simp [incr, lookup, h]
  | cons p rest ih =>
    obtain ⟨k₀, v₀⟩ := p
    by_cases h0 : k₀ = k'
    · subst h0
      by_cases h : k₀ = k <;> simp [incr, lookup, h]
    · by_cases h : k₀ = k
      · subst h
        have h' : k' ≠ k₀ := fun e => h0 e.symm
        simp [incr, lookup, h0, h']
      · simp [incr, lookup, h0, h, ih]

theorem mem_keys_incr (m : FreqMap) (k k' : Str) :
    k' ∈ keys (incr m k) ↔ k' ∈ keys m ∨ k' = k := by
  induction m with
  | nil => simp [incr, keys, eq_comm]
  | cons p rest ih =>
    obtain ⟨k₀, v₀⟩ := p
    by_cases h0 : k₀ = k
    · subst h0
      by_cases h : k' = k₀ <;> simp [incr, keys, h] at ih ⊢ <;> tauto
    · simp [incr, keys, h0] at ih ⊢
      tauto

theorem nodup_keys_incr (m : FreqMap) (k : Str) (h : (keys m).Nodup) :
    (keys (incr m k)).Nodup := by
  induction m with
  | nil => simp [incr, keys]
  | cons p rest ih =>
    obtain ⟨k₀, v₀⟩ := p
    rw [keys_cons, List.nodup_cons] at h
    by_cases h0 : k₀ = k
    · subst h0
      rw [incr_cons_eq, keys_cons, List.nodup_cons]
      exact h
    · rw [incr_cons_ne _ _ _ _ h0, keys_cons, List.nodup_cons]
      exact ⟨fun hk => ((mem_keys_incr rest k k₀).mp hk).elim h.1 h0, ih h.2⟩

theorem lookup_eq_none_iff (m : FreqMap) (k : Str) :
    lookup k m = none ↔ k ∉ keys m := by
  induction m with
  | nil => simp [lookup, keys]
  | cons p rest ih =>
    obtain ⟨k₀, v₀⟩ := p
    rw [keys_cons]
    by_cases h : k₀ = k
    · subst h
      simp [lookup]
    · have h' : k ≠ k₀ := fun e => h e.symm
      simp [lookup, h, ih, h']

theorem sumValues_incr (m : FreqMap) (k : Str) :
    sumValues (incr m k) = sumValues m + 1 := by
  induction m with
  | nil => simp [incr, sumValues]
  | cons p rest ih =>
    obtain ⟨k₀, v₀⟩ := p
    by_cases h : k₀ = k <;> simp [incr, sumValues, h] at ih ⊢ <;> omega

theorem pos_of_mem_incr (m : FreqMap) (k : Str) (h : ∀ p ∈ m, 0 < p.2) :
    ∀ p ∈ incr m k, 0 < p.2 := by
  induction m with
  | nil =>
    intro p hp
    simp [incr] at hp
    simp [hp]
  | cons q rest ih =>
    obtain ⟨k₀, v₀⟩ := q
    intro p hp
    by_cases h0 : k₀ = k
    · subst h0
      rw [incr_cons_eq] at hp
      rcases List.mem_cons.mp hp with hp | hp
      · subst hp
        simp
      · exact h p (List.mem_cons_of_mem _ hp)
    · rw [incr_cons_ne _ _ _ _ h0] at hp
      rcases List.mem_cons.mp hp with hp | hp
      · subst hp
        exact h _ (List.mem_cons_self _ _)
      · exact ih (fun q hq => h q (List.mem_cons_of_mem _ hq)) p hp

/-! ## Lemmas about `applyUnits` -/

theorem applyUnits_nil (m : FreqMap) : applyUnits m [] = m := rfl

theorem applyUnits_cons (m : FreqMap) (u : Str) (us : List Str) :
    applyUnits m (u :: us) = applyUnits (incr m u) us := rfl

theorem applyUnits_append (m : FreqMap) (us vs : List Str) :
    applyUnits m (us ++ vs) = applyUnits (applyUnits m us) vs :=
  List.foldl_append _ _ _ _

theorem lookupD_applyUnits (m : FreqMap) (us : List Str) (k : Str) :
    (lookup k (applyUnits m us)).getD 0 = (lookup k m).getD 0 + us.count k := by
  induction us generalizing m with
  | nil => simp [applyUnits_nil]
  | cons u rest ih =>
    rw [applyUnits_cons, ih, lookup_incr]
    by_cases h : u = k <;> simp [h, List.count_cons] <;> omega

theorem mem_keys_applyUnits (m : FreqMap) (us : List Str) (k : Str) :
    k ∈ keys (applyUnits m us) ↔ k ∈ keys m ∨ k ∈ us := by
  induction us generalizing m with
  | nil => simp [applyUnits_nil]
  | cons u rest ih =>
    rw [applyUnits_cons, ih, mem_keys_incr]
    by_cases h : k = u <;> simp [h] <;> tauto

theorem nodup_keys_applyUnits (m : FreqMap) (us : List Str) (h : (keys m).Nodup) :
    (keys (applyUnits m us)).Nodup := by
  induction us generalizing m with
  | nil => simpa [applyUnits_nil] using h
  | cons u rest ih => exact ih _ (nodup_keys_incr _ _ h)

theorem pos_of_mem_applyUnits (m : FreqMap) (us : List Str)
    (h : ∀ p ∈ m, 0 < p.2) : ∀ p ∈ applyUnits m us, 0 < p.2 := by
  induction us generalizing m with
  | nil => simpa [applyUnits_nil] using h
  | cons u rest ih => exact ih _ (pos_of_mem_incr _ _ h)

theorem sumValues_applyUnits (m : FreqMap) (us : List Str) :
    sumValues (applyUnits m us) = sumValues m + us.length := by
  induction us generalizing m with
  | nil => simp [applyUnits_nil]
  | cons u rest ih =>
    rw [applyUnits_cons, ih, sumValues_incr, List.length_cons]
    omega

theorem lookup_applyUnits_nil (us : List Str) (u : Str) :
    lookup u (applyUnits [] us) =
      if us.count u = 0 then none else some (us.count u) := by
  by_cases h : us.count u = 0
  · have hmem : u ∉ us := List.count_eq_zero.mp h
    have : u ∉ keys (applyUnits [] us) := by
      rw [mem_keys_applyUnits]
      simp [keys, hmem]
    simp [h, (lookup_eq_none_iff _ _).mpr this]
  · have hmem : u ∈ us := by
      by_contra hn
      exact h (List.count_eq_zero.mpr hn)
    have hk : u ∈ keys (applyUnits [] us) := by
      rw [mem_keys_applyUnits]
      exact Or.inr hmem
    have hlk : lookup u (applyUnits [] us) ≠ none := by
      rw [Ne, lookup_eq_none_iff]
      simpa using hk
    obtain ⟨v, hv⟩ := Option.ne_none_iff_exists'.mp hlk
    have := lookupD_applyUnits [] us u
    rw [hv] at this
    simp [lookup] at this
    simp [h, hv, this]

/-! ## `count` as a fold over observed units -/

theorem processLine_eq_applyUnits (m : FreqMap) (option : CountOption) (line : Str) :
    processLine m option line = applyUnits m (unitsOfLine option line) := by
  cases option with
  | Char => simp [processLine, unitsOfLine, applyUnits, List.foldl_map]
  | Word => rfl
  | Line => rfl

theorem observedUnits_nil (option : CountOption) : observedUnits [] option = [] := rfl

theorem observedUnits_cons_some (line : Str) (rest : List (Option Str))
    (option : CountOption) :
    observedUnits (some line :: rest) option =
      unitsOfLine option line ++ observedUnits rest option := by
  simp [observedUnits]

theorem countLoop_eq_some (option : CountOption) (input : List (Option Str))
    (freqs m : FreqMap) (h : countLoop option input freqs = some m) :
    m = applyUnits freqs (observedUnits input option) := by
  induction input generalizing freqs with
  | nil =>
    simp [countLoop] at h
    simp [h, observedUnits_nil, applyUnits_nil]
  | cons o rest ih =>
    cases o with
    | none => simp [countLoop] at h
    | some line =>
      rw [countLoop] at h
      rw [observedUnits_cons_some, applyUnits_append, ← processLine_eq_applyUnits]
      exact ih _ h

theorem countLoop_map_some (option : CountOption) (lines : List Str) (freqs : FreqMap) :
    countLoop option (lines.map some) freqs =
      some (lines.foldl (fun freqs line => processLine freqs option line) freqs) := by
  induction lines generalizing freqs with
  | nil => rfl
  | cons line rest ih => simp [countLoop, ih]

theorem count_map_some (lines : List Str) (option : CountOption) :
    count (lines.map some) option = some (countLines lines option) :=
  countLoop_map_some option lines []

theorem countLines_eq_applyUnits (lines : List Str) (option : CountOption) :
    countLines lines option =
      applyUnits [] ((lines.map (unitsOfLine option)).flatten) := by
  have h := countLoop_eq_some option (lines.map some) [] (countLines lines option)
    (count_map_some lines option)
  simpa [observedUnits] using h

theorem sumValues_countLines (lines : List Str) (option : CountOption) :
    sumValues (countLines lines option) =
      ((lines.map (unitsOfLine option)).map List.length).sum := by
  rw [countLines_eq_applyUnits, sumValues_applyUnits, List.length_flatten]
  simp [sumValues, List.map_map]

theorem lookup_countLines (lines : List Str) (option : CountOption) (u : Str) :
    lookup u (countLines lines option) =
      (if ((lines.map (unitsOfLine option)).flatten).count u = 0 then none
       else some (((lines.map (unitsOfLine option)).flatten).count u)) := by
  rw [countLines_eq_applyUnits, lookup_applyUnits_nil]

/-! ## `findWords` and maximal runs -/

theorem findWordsAux_length (l : List Char) :
    ∀ acc : List Char, (findWordsAux acc l).length =
      if acc.isEmpty then countRuns false l else 1 + countRuns true l := by
  induction l with
  | nil =>
    intro acc
    cases acc <;> simp [findWordsAux, countRuns]
  | cons c rest ih =>
    intro acc
    by_cases hw : isWordChar c
    · rw [findWordsAux, if_pos hw, ih (c :: acc)]
      cases acc <;> simp [countRuns, hw]
    · cases acc with
      | nil => simp [findWordsAux, hw, ih, countRuns]
      | cons a as =>
        simp only [findWordsAux, hw, if_neg, Bool.false_eq_true, List.isEmpty_cons,
          if_false, List.length_cons, ih []]
        simp [countRuns, hw]
        omega

theorem findWords_length (line : Str) :
    (findWords line).length = countRuns false line := by
  rw [findWords, findWordsAux_length]
  rfl

/-! ## Lemmas about `splitLines` -/

theorem mem_stripCR {c : Char} {l : Str} (h : c ∈ stripCR l) : c ∈ l := by
  rw [stripCR] at h
  split at h
  · exact List.mem_of_mem_dropLast h
  · exact h

theorem splitLinesAux_nil (acc : List Char) :
    splitLinesAux acc [] = [acc.reverse] := rfl

theorem splitLinesAux_newline_last (acc : List Char) :
    splitLinesAux acc ['\n'] = [stripCR acc.reverse] := rfl

theorem splitLinesAux_newline_cons (acc : List Char) (d : Char) (rest : List Char) :
    splitLinesAux acc ('\n' :: d :: rest) =
      stripCR acc.reverse :: splitLinesAux [] (d :: rest) := rfl

theorem splitLinesAux_other (acc : List Char) (c : Char) (rest : List Char)
    (h : c ≠ '\n') :
    splitLinesAux acc (c :: rest) = splitLinesAux (c :: acc) rest := by
  rw [splitLinesAux.eq_def]
  simp [h]

theorem newline_not_mem_splitLinesAux (l : List Char) :
    ∀ acc : List Char, '\n' ∉ acc →
      ∀ line ∈ splitLinesAux acc l, '\n' ∉ line := by
  induction l with
  | nil =>
    intro acc hacc line hline
    rw [splitLinesAux_nil] at hline
    simp at hline
    subst hline
    simpa using hacc
  | cons c rest ih =>
    intro acc hacc line hline
    by_cases hc : c = '\n'
    · subst hc
      cases rest with
      | nil =>
        rw [splitLinesAux_newline_last] at hline
        simp at hline
        subst hline
        intro hmem
        exact hacc (by simpa using mem_stripCR hmem)
      | cons d rest' =>
        rw [splitLinesAux_newline_cons] at hline
        rcases List.mem_cons.mp hline with hline | hline
        · subst hline
          intro hmem
          exact hacc (by simpa using mem_stripCR hmem)
        · exact ih [] (by simp) line hline
    · rw [splitLinesAux_other _ _ _ hc] at hline
      refine ih (c :: acc) ?_ line hline
      intro hmem
      rcases List.mem_cons.mp hmem with h | h
      · exact hc h.symm
      · exact hacc h

theorem newline_not_mem_splitLines (s : Str) :
    ∀ line ∈ splitLines s, '\n' ∉ line := by
  cases s with
  | nil => simp [splitLines]
  | cons c rest =>
    exact newline_not_mem_splitLinesAux (c :: rest) [] (by simp)

theorem flatten_map_singleton (lines : List Str) :
    (lines.map (fun l => [l])).flatten = lines := by
  induction lines with
  | nil => rfl
  | cons l rest ih => simp [ih]

theorem flatten_units_line (lines : List Str) :
    (lines.map (unitsOfLine CountOption.Line)).flatten = lines := by
  have h : unitsOfLine CountOption.Line = fun line => [line] := rfl
  rw [h, flatten_map_singleton]

theorem countLoop_abort (option : CountOption) (pre post : List (Option Str)) :
    ∀ freqs, countLoop option (pre ++ none :: post) freqs = none := by
  induction pre with
  | nil => intro freqs; rfl
  | cons o rest ih =>
    intro freqs
    cases o with
    | none => rfl
    | some line => simpa [countLoop] using ih (processLine freqs option line)

/-! ## The claims -/

/-- C1: For every input source and every `CountOption`, the mapping returned
by `count` contains exactly one entry per distinct unit observed (its keys
are free of duplicates), the value of each observed unit's entry equals the
number of occurrences of that unit across the whole input, any unit never
observed is absent from the mapping, and in particular no entry ever has
count 0. -/
theorem count_result_guarantee (input : List (Option Str)) (option : CountOption)
    (m : FreqMap) (h : count input option = some m) :
    (keys m).Nodup ∧
    (∀ u, u ∈ observedUnits input option →
        lookup u m = some ((observedUnits input option).count u)) ∧
    (∀ u, u ∉ observedUnits input option → lookup u m = none) ∧
    (∀ u n, lookup u m = some n → 0 < n) := by
  have hm := countLoop_eq_some option input [] m h
  subst hm
  refine ⟨nodup_keys_applyUnits [] _ (by simp [keys]), ?_, ?_, ?_⟩
  · intro u hu
    rw [lookup_applyUnits_nil]
    have hc : (observedUnits input option).count u ≠ 0 := by
      rw [Ne, List.count_eq_zero]
      simpa using hu
    simp [hc]
  · intro u hu
    rw [lookup_applyUnits_nil]
    simp [List.count_eq_zero.mpr hu]
  · intro u n hl
    rw [lookup_applyUnits_nil] at hl
    by_cases hz : (observedUnits input option).count u = 0
    · simp [hz] at hl
    · simp [hz] at hl
      omega

theorem count_result_guarantee_witness :
    (keys [(['a'], 1)]).Nodup ∧
    (∀ u, u ∈ observedUnits [some ['a']] CountOption.Word →
        lookup u [(['a'], 1)] =
          some ((observedUnits [some ['a']] CountOption.Word).count u)) ∧
    (∀ u, u ∉ observedUnits [some ['a']] CountOption.Word →
        lookup u [(['a'], 1)] = none) ∧
    (∀ u n, lookup u [(['a'], 1)] = some n → 0 < n) :=
  count_result_guarantee [some ['a']] CountOption.Word [(['a'], 1)] (by decide)

/-- C2: For every input source containing a line that is not valid UTF-8 and
for every `CountOption`, `count` fails abruptly and irrecoverably at that
line: it returns no mapping at all — no partial result, no replacement
characters — and it does not skip the bad line and continue (the input after
the bad line is never consulted: the result is `none` for every such
suffix). -/
theorem count_invalid_utf8_aborts (pre post : List (Option Str)) (option : CountOption) :
    count (pre ++ none :: post) option = none :=
  countLoop_abort option pre post []

/-- C3: For every valid UTF-8 input and `option = Word`, the sum of all
counts in the mapping returned by `count` equals the total number of
non-overlapping maximal runs of word characters, scanned left to right,
across all lines (`countRuns` counts a run exactly at its starting
position; characters outside such runs contribute nothing). -/
theorem count_word_sum_eq_runs (s : Str) :
    sumValues (countString s CountOption.Word) =
      ((splitLines s).map (countRuns false)).sum := by
  rw [countString, sumValues_countLines, List.map_map]
  have h : (List.length ∘ unitsOfLine CountOption.Word) = countRuns false := by
    funext line
    simp [unitsOfLine, findWords_length]
  rw [h]

/-- C4: For every valid UTF-8 input and `option = Char`, the sum of all
counts in the mapping returned by `count` equals the total number of Unicode
scalar values across all lines, line terminators excluded; the newline
character is never counted, because line terminators are stripped before
characters are counted. -/
theorem count_char_sum_eq_scalars (s : Str) :
    sumValues (countString s CountOption.Char) =
      ((splitLines s).map List.length).sum ∧
    lookup ['\n'] (countString s CountOption.Char) = none := by
  constructor
  · rw [countString, sumValues_countLines, List.map_map]
    have h : (List.length ∘ unitsOfLine CountOption.Char) = List.length := by
      funext line
      simp [unitsOfLine]
    rw [h]
  · rw [countString, lookup_countLines]
    have hc : ((splitLines s).map (unitsOfLine CountOption.Char)).flatten.count
        ['\n'] = 0 := by
      rw [List.count_eq_zero]
      intro hmem
      rw [List.mem_flatten] at hmem
      obtain ⟨us, hus, hmem⟩ := hmem
      rw [List.mem_map] at hus
      obtain ⟨line, hline, rfl⟩ := hus
      simp only [unitsOfLine, List.mem_map] at hmem
      obtain ⟨c, hc, hceq⟩ := hmem
      have : c = '\n' := by simpa using hceq
      subst this
      exact newline_not_mem_splitLines s line hline hc
    simp [hc]

/-- C5: For every valid UTF-8 input and `option = Line`, the sum of all
counts in the mapping returned by `count` equals the number of lines after
terminator normalization, and a line's key holds exactly the number of lines
with identical content after terminator stripping (so two lines map to the
same key exactly when their stripped contents are equal). -/
theorem count_line_sum_and_keys (s : Str) :
    sumValues (countString s CountOption.Line) = (splitLines s).length ∧
    (∀ u, lookup u (countString s CountOption.Line) =
      (if (splitLines s).count u = 0 then none
       else some ((splitLines s).count u))) := by
  constructor
  · rw [countString, sumValues_countLines, List.map_map]
    have h : (List.length ∘ unitsOfLine CountOption.Line) = fun _ : Str => 1 := by
      funext line
      simp [unitsOfLine]
    rw [h]
    simp
  · intro u
    rw [countString, lookup_countLines, flatten_units_line]

/-- C6: Terminator equivalence: `count` on `"aa\r\nbb\r\ncc\r\nbb"` with
option `Line` and `count` on `"aa\nbb\ncc\nbb"` with option `Line` return
equal mappings, namely `{"aa": 1, "bb": 2, "cc": 1}`. -/
theorem count_terminator_equivalence :
    countString ['a', 'a', '\r', '\n', 'b', 'b', '\r', '\n',
        'c', 'c', '\r', '\n', 'b', 'b'] CountOption.Line =
      countString ['a', 'a', '\n', 'b', 'b', '\n', 'c', 'c', '\n', 'b', 'b']
        CountOption.Line ∧
    countString ['a', 'a', '\n', 'b', 'b', '\n', 'c', 'c', '\n', 'b', 'b']
        CountOption.Line =
      [(['a', 'a'], 1), (['b', 'b'], 2), (['c', 'c'], 1)] := by
  decide

/-- C7: Determinism: two invocations of `count` on sources that yield equal
sequences of line reads, with the same `CountOption`, return equal
results. -/
theorem count_deterministic (input₁ input₂ : List (Option Str))
    (option : CountOption) (h : input₁ = input₂) :
    count input₁ option = count input₂ option := by
  rw [h]

theorem count_deterministic_witness :
    ([some ['a']] : List (Option Str)) = [some ['a']] ∧
    count [some ['a']] CountOption.Line = count [some ['a']] CountOption.Line :=
  ⟨rfl, count_deterministic [some ['a']] [some ['a']] CountOption.Line rfl⟩

/-- C8: Empty input is a boundary case, not a failure: on a source from
which no line is ever read, `count` returns the empty mapping under every
`CountOption` (both for the empty sequence of line reads and for reading
from the empty text). -/
theorem count_empty_input (option : CountOption) :
    count [] option = some [] ∧ countString [] option = [] :=
  ⟨rfl, rfl⟩

/-- C9: `CountOption` is an enumeration of exactly three pairwise distinct
variants `Char`, `Word` and `Line`, and its default value is `Word`. -/
theorem countOption_variants_and_default :
    (∀ option : CountOption,
        option = CountOption.Char ∨ option = CountOption.Word ∨
          option = CountOption.Line) ∧
    CountOption.Char ≠ CountOption.Word ∧
    CountOption.Char ≠ CountOption.Line ∧
    CountOption.Word ≠ CountOption.Line ∧
    CountOption.default = CountOption.Word := by
  refine ⟨fun option => ?_, by decide, by decide, by decide, rfl⟩
  cases option with
  | Char => exact Or.inl rfl
  | Word => exact Or.inr (Or.inl rfl)
  | Line => exact Or.inr (Or.inr rfl)

/-- C10: In `Line` mode, an empty line (a bare terminator, or terminators
with nothing between them) produces an entry whose key is the empty string,
incremented once per empty line: the entry's count is the number of empty
lines, which is positive — empty lines are counted, not skipped. -/
theorem count_empty_line_entry (s : Str) (h : [] ∈ splitLines s) :
    lookup [] (countString s CountOption.Line) =
      some ((splitLines s).count []) ∧
    0 < (splitLines s).count [] := by
  have hc : (splitLines s).count ([] : Str) ≠ 0 := by
    rw [Ne, List.count_eq_zero]
    simpa using h
  constructor
  · rw [countString, lookup_countLines, flatten_units_line]
    simp [hc]
  · omega

theorem count_empty_line_entry_witness :
    ([] : Str) ∈ splitLines ['\n', '\n'] ∧
    (lookup [] (countString ['\n', '\n'] CountOption.Line) =
        some ((splitLines ['\n', '\n']).count []) ∧
      0 < (splitLines ['\n', '\n']).count []) :=
  ⟨by decide, count_empty_line_entry ['\n', '\n'] (by decide)⟩
